import Mathlib

/-!
Shallow embedding of the bacta repository's two core modules and proofs
about them.

Sources embedded:
* `src/bacta/cigar_scorer.py` — CIGAR-string decoding (`CIGAR_REGEX.findall`
  based), operator scoring, MD-tag mismatch counting;
* `src/bacta/benchmark_utils.py` — per-threshold count table with cumulative
  true/false positives, precision/recall/F-scores, and average precision.

Modelling conventions:
* Python `re.findall` scanning is embedded as a fuel-indexed scanner (fuel =
  input length), so every definition is executable and kernel-reducible.
* Machine floats are idealised as `ℚ`.  The only not-a-number the Python code
  can produce in the fields we reason about is `0.0/0.0` (precision with
  `TP+FP = 0`, sensitivity with `total_contam = 0`, where the numerator is
  then also 0); Lean's junk value `0/0 = 0` coincides with the
  `np.nan_to_num` replacement used by `calculate_average_precision`, and we
  note the correspondence at each use.
* Integer counts written with Python's `"{:.3g}"` format and re-parsed by
  pandas come back rounded to three significant decimal digits (round half
  to even); `g3` below models that round trip.
* The per-instance logger / `cig_warned` mutable state of `CigarScorer` is
  threaded explicitly: scoring takes the warned-set and returns the updated
  set together with the list of warning events emitted.
* Display-only aspects of `write_table` are not modelled: the Threshold
  column's `"{:g}"` formatting (value-preserving for the integer magnitudes
  at issue and unused by every computed statistic, which identifies rows by
  position in the sorted order) and the alphabetical `CONTAM`/`REF` column
  ordering of the emitted text (the row structure carries named fields).
-/

set_option maxHeartbeats 1000000

/-- CIGAR operator alphabet in code order (comment table at the top of
`cigar_scorer.py`): letters `M I D N S H P = X B` carry codes 0..9. -/
def cigarAlphabet : List Char := ['M', 'I', 'D', 'N', 'S', 'H', 'P', '=', 'X', 'B']

/-- Membership in the character class `[MIDNSHP=XB]` of `CIGAR_REGEX`. -/
def isCigarOp (c : Char) : Bool := cigarAlphabet.contains c

/-- The `CIGAR2CODE` dict: operator letter to numeric code, by position in
the alphabet (`enumerate("MIDNSHP=XB")`). -/
def cigar2code (c : Char) : Nat := cigarAlphabet.indexOf c

/-- Letter of an operator code (left inverse of `cigar2code`, used when
re-encoding an operation sequence back into CIGAR text). -/
def opLetter (code : Nat) : Char := cigarAlphabet.getD code '?'

/-- Numeric value of one ASCII digit character. -/
def digitVal (c : Char) : Nat := c.toNat - 48

/-- Value of a digit run, as Python `int` computes it. -/
def digitsToNat (l : List Char) : Nat := l.foldl (fun a c => 10 * a + digitVal c) 0

/-- Fuel-indexed model of `CIGAR_REGEX.findall`, the scan in
`CigarScorer.cigarstring_to_tuples`: at each position, match a maximal digit
run followed by one operator letter; on failure advance one character.  The
regex `(\d+)([MIDNSHP=XB])` backtracks over `\d+` only into shorter digit
runs whose following character is still a digit and hence never in the
operator class, so maximal-run-then-check is exactly its behaviour. -/
def cigarFindAllF : Nat → List Char → List (List Char × Char)
  | 0, _ => []
  | _ + 1, [] => []
  | f + 1, c :: cs =>
    if c.isDigit then
      match (c :: cs).dropWhile Char.isDigit with
      | d :: ds =>
        if isCigarOp d then
          ((c :: cs).takeWhile Char.isDigit, d) :: cigarFindAllF f ds
        else cigarFindAllF f cs
      | [] => cigarFindAllF f cs
    else cigarFindAllF f cs

/-- All matches of `CIGAR_REGEX` in a character list (fuel = length). -/
def cigarFindAll (l : List Char) : List (List Char × Char) := cigarFindAllF l.length l

/-- `CigarScorer.cigarstring_to_tuples`: `CIGAR_REGEX.findall(cigar)`, then
`(CIGAR2CODE[letter], int(digits))` per match.  The Python function has no
error path: `findall` silently skips unmatched characters. -/
def cigarstring_to_tuples (s : String) : List (Nat × Nat) :=
  (cigarFindAll s.data).map (fun p => (cigar2code p.2, digitsToNat p.1))

/-- Fuel-indexed total-match test for the specification's CIGAR grammar: the
whole input must decompose into digit-run-plus-operator-letter tokens with
nothing left over.  This is the specification's stated grammar, used to
compare against what `cigarstring_to_tuples` actually does. -/
def cigarFullMatchF : Nat → List Char → Bool
  | 0, l => l.isEmpty
  | _ + 1, [] => true
  | f + 1, c :: cs =>
    c.isDigit &&
      (match (c :: cs).dropWhile Char.isDigit with
       | d :: ds => isCigarOp d && cigarFullMatchF f ds
       | [] => false)

/-- Total-match test for the specification's CIGAR grammar on a string. -/
def cigarFullMatch (s : String) : Bool := cigarFullMatchF s.data.length s.data

/-- The `_cigar_score` dict of `cigar_scorer.py`: operator code to
per-length score contribution.  Codes absent from the dict raise `KeyError`
in Python, modelled as `none`. -/
def cigar_score : Nat → Option (Int → Int)
  | 0 => some (fun x => x)
  | 1 => some (fun x => -6 - x)
  | 2 => some (fun x => -6 - x)
  | 3 => some (fun _ => 0)
  | 4 => some (fun _ => 0)
  | 5 => some (fun _ => 0)
  | 6 => some (fun _ => 0)
  | 7 => some (fun x => x)
  | 8 => some (fun x => x * -1)
  | 9 => some (fun _ => 0)
  | _ => none

/-- State of one `CigarScorer` scoring run: accumulated score, the
per-instance `cig_warned` set (as a list), and the warning events emitted to
the logger during the run (operator codes, in emission order). -/
structure ScoreAcc where
  score : Int
  warned : List Nat
  log : List Nat

/-- One iteration of the loop in `CigarScorer.score_cigartuples`: add the
table contribution, or on `KeyError` warn once per unseen code. -/
def scoreStep (acc : ScoreAcc) (c : Nat × Nat) : ScoreAcc :=
  match cigar_score c.1 with
  | some f => { acc with score := acc.score + f (c.2 : Int) }
  | none =>
    if c.1 ∈ acc.warned then acc
    else { acc with warned := c.1 :: acc.warned, log := acc.log ++ [c.1] }

/-- `CigarScorer.score_cigartuples`, with the instance's `cig_warned` state
passed in explicitly and the updated state and emitted warnings returned. -/
def score_cigartuples (warned : List Nat) (ctups : List (Nat × Nat)) : ScoreAcc :=
  ctups.foldl scoreStep { score := 0, warned := warned, log := [] }

/-- `CigarScorer.score_cigarstring`: decode then score. -/
def score_cigarstring (warned : List Nat) (cigar : String) : ScoreAcc :=
  score_cigartuples warned (cigarstring_to_tuples cigar)

/-- Contribution of a single cigar tuple to the score: the table entry, or 0
for a code the table does not know (the `except KeyError` path adds
nothing). -/
def opContribution (c : Nat × Nat) : Int :=
  match cigar_score c.1 with
  | some f => f (c.2 : Int)
  | none => 0

/-- Warning events produced by a scoring run that starts with warned-set
`w`: one event per first occurrence of an unknown code. -/
def newWarns (w : List Nat) : List (Nat × Nat) → List Nat
  | [] => []
  | c :: cs =>
    match cigar_score c.1 with
    | some _ => newWarns w cs
    | none => if c.1 ∈ w then newWarns w cs else c.1 :: newWarns (c.1 :: w) cs

/-- The `cig_warned` set after scoring a tuple list starting from `w`. -/
def warnedAfter (w : List Nat) : List (Nat × Nat) → List Nat
  | [] => w
  | c :: cs =>
    match cigar_score c.1 with
    | some _ => warnedAfter w cs
    | none => if c.1 ∈ w then warnedAfter w cs else warnedAfter (c.1 :: w) cs

/-- Per-kind score contribution as the claim states it: +L for Match and
Equal, -(6+L) for Insertion and Deletion, -L for Diff, 0 for RefSkip,
SoftClip, HardClip, Pad and Back. -/
def claimContribution (kind len : Nat) : Int :=
  match kind with
  | 0 => (len : Int)
  | 1 => -(6 + (len : Int))
  | 2 => -(6 + (len : Int))
  | 7 => (len : Int)
  | 8 => -(len : Int)
  | _ => 0

/-- Helper for re-encoding and digit reasoning: decimal digits of `n`,
most significant first, via fuel-indexed division (fuel `n + 1` always
suffices since a number has at most `n + 1` digits). -/
def natToDigitsAux : Nat → Nat → List Char → List Char
  | 0, _, acc => acc
  | f + 1, n, acc =>
    if n = 0 then acc else natToDigitsAux f (n / 10) (Nat.digitChar (n % 10) :: acc)

/-- Canonical (non-zero-padded) decimal digit list of `n`. -/
def natDigits (n : Nat) : List Char := if n = 0 then ['0'] else natToDigitsAux (n + 1) n []

/-- Concatenation of `length` digits followed by operator letter for a
token list: the canonical text of a CIGAR whose tokens are given as
(length, letter) pairs. -/
def encodeToks : List (Nat × Char) → List Char
  | [] => []
  | t :: ts => natDigits t.1 ++ t.2 :: encodeToks ts

/-- Re-encoding of decoded operations (code, length): decimal length then
the letter of the code, concatenated in order. -/
def encodeOps : List (Nat × Nat) → List Char
  | [] => []
  | o :: os => natDigits o.2 ++ opLetter o.1 :: encodeOps os

/-- The class `[A-Za-z]` of `MD_REGEX`. -/
def isAsciiAlpha (c : Char) : Bool :=
  (65 ≤ c.toNat && c.toNat ≤ 90) || (97 ≤ c.toNat && c.toNat ≤ 122)

/-- Fuel-indexed model of `MD_REGEX.findall` with
`MD_REGEX = ([A-Za-z]+|\^[A-Za-z])`: at each position first try a maximal
letter run, then a caret followed by exactly one letter, else advance one
character. -/
def mdFindAllF : Nat → List Char → List (List Char)
  | 0, _ => []
  | _ + 1, [] => []
  | f + 1, c :: cs =>
    if isAsciiAlpha c then
      (c :: cs).takeWhile isAsciiAlpha :: mdFindAllF f ((c :: cs).dropWhile isAsciiAlpha)
    else if c = '^' then
      match cs with
      | d :: ds => if isAsciiAlpha d then [c, d] :: mdFindAllF f ds else mdFindAllF f cs
      | [] => []
    else mdFindAllF f cs

/-- All matches of `MD_REGEX` in a character list (fuel = length). -/
def mdFindAll (l : List Char) : List (List Char) := mdFindAllF l.length l

/-- Sum of the loop body of `CigarScorer.md_mismatches`: a token adds its
length when its first character is a letter (tokens produced by `MD_REGEX`
start with an ASCII letter or with a caret, and Python's `isalpha` agrees
with `isAsciiAlpha` on those). -/
def mdTokenSum (toks : List (List Char)) : Nat :=
  (toks.map (fun x =>
    match x with
    | [] => 0
    | y :: ys => if isAsciiAlpha y then ys.length + 1 else 0)).sum

/-- `CigarScorer.md_mismatches`: count of mismatching reference bases
reported by an MD tag. -/
def md_mismatches (md : String) : Nat := mdTokenSum (mdFindAll md.data)

/-- Position-wise characterisation used to state C5: walk the string with
the previous character at hand and count the letters not immediately
preceded by a caret. -/
def mdCountAux : Option Char → List Char → Nat
  | _, [] => 0
  | prev, c :: cs =>
    (if isAsciiAlpha c && !(prev == some '^') then 1 else 0) + mdCountAux (some c) cs

/-- Number of ASCII letters of `s` not immediately preceded by `^`. -/
def mdSpecCount (s : String) : Nat := mdCountAux none s.data

/-- One entry of the `ThresholdCounts` mapping handed to `write_table`:
a numeric threshold with its per-category read counts. -/
structure CountEntry where
  thr : Int
  ref : Nat
  contam : Nat

/-- Round-trip of a count through `str.format("{:.3g}", n)` and the pandas
float parser: values of at most three digits survive unchanged, larger ones
are rounded to three significant decimal digits, half to even (the Python
float formatting rule; counts are integers, exact as binary floats). -/
def g3 (n : Nat) : Nat :=
  if n < 1000 then n
  else
    let k := (natDigits n).length
    let scale := 10 ^ (k - 3)
    let q := n / scale
    let r := n % scale
    let q2 := if 2 * r > scale ∨ (2 * r = scale ∧ q % 2 = 1) then q + 1 else q
    q2 * scale

/-- Insertion into a list sorted by ascending threshold. -/
def insertRow (z : CountEntry) : List CountEntry → List CountEntry
  | [] => [z]
  | x :: xs => if z.thr ≤ x.thr then z :: x :: xs else x :: insertRow z xs

/-- The `sorted(counts.keys())` walk of `write_table`: entries by ascending
threshold (insertion sort). -/
def sortRows (l : List CountEntry) : List CountEntry := l.foldr insertRow []

/-- Sum of the contamination counts of a row block, after the `"{:.3g}"`
round trip (this is what `df['CONTAM'].sum()` and the cumulative `tc` see). -/
def sumContam : List CountEntry → Nat
  | [] => 0
  | e :: rest => g3 e.contam + sumContam rest

/-- Sum of the reference counts of a row block after the `"{:.3g}"` round
trip. -/
def sumRef : List CountEntry → Nat
  | [] => 0
  | e :: rest => g3 e.ref + sumRef rest

/-- One row of the dataframe `write_table` builds: the parsed counts plus
the computed columns TP, FP, Sensitivity, 1-Specificity (fallout),
Precision, F1 and F2. -/
structure StatRow where
  thr : Int
  contam : Nat
  ref : Nat
  tp : Nat
  fp : Nat
  sens : ℚ
  fallout : ℚ
  prec : ℚ
  f1 : ℚ
  f2 : ℚ

/-- Row of the emitted table for entry `e` when the rows strictly below it
in the descending cumulation (the later rows of the ascending table) are
`rest`: TP and FP are the cumulative sums over this row and `rest`, and the
ratio columns follow `write_table` line by line; in particular F2 is
computed there as `(1 + 2) * P * S / (2 * P + S)`.  Division by zero can
only occur with a zero numerator (see the file comment on NaN). -/
def rowOf (totC totR : Nat) (e : CountEntry) (rest : List CountEntry) : StatRow :=
  let tp := g3 e.contam + sumContam rest
  let fp := g3 e.ref + sumRef rest
  let sens : ℚ := (tp : ℚ) / (totC : ℚ)
  let fallout : ℚ := (fp : ℚ) / (totR : ℚ)
  let prec : ℚ := (tp : ℚ) / ((tp : ℚ) + (fp : ℚ))
  { thr := e.thr
    contam := g3 e.contam
    ref := g3 e.ref
    tp := tp
    fp := fp
    sens := sens
    fallout := fallout
    prec := prec
    f1 := 2 * prec * sens / (prec + sens)
    f2 := (1 + 2) * prec * sens / (2 * prec + sens) }

/-- The rows of the dataframe for a sorted entry list: each row's TP/FP are
the suffix sums from that entry down the list (the reversed cumulative sums
of `write_table`). -/
def buildRows (totC totR : Nat) : List CountEntry → List StatRow
  | [] => []
  | e :: rest => rowOf totC totR e rest :: buildRows totC totR rest

/-- Rows of an initial block `l` of a table whose remaining entries are
`tail` (suffix sums continue into `tail`).  Satisfies
`buildRows totC totR (l ++ tail) = buildPre totC totR tail l ++ buildRows totC totR tail`. -/
def buildPre (totC totR : Nat) (tail : List CountEntry) : List CountEntry → List StatRow
  | [] => []
  | e :: rest => rowOf totC totR e (rest ++ tail) :: buildPre totC totR tail rest

/-- The full statistics table `write_table` computes for a (non-empty)
counts mapping: sort by threshold, total the parsed counts, build rows. -/
def tableOf (counts : List CountEntry) : List StatRow :=
  buildRows (sumContam (sortRows counts)) (sumRef (sortRows counts)) (sortRows counts)

/-- `write_table`: on an empty mapping the header construction
`k, *_ = counts.keys()` raises `ValueError` before any statistic is
computed (modelled as `none`); otherwise the table of rows is produced. -/
def write_table (counts : List CountEntry) : Option (List StatRow) :=
  match counts with
  | [] => none
  | _ :: _ => some (tableOf counts)

/-- `calculate_fbeta_score` of `benchmark_utils.py`: beta is squared first,
then `(1 + b) * precision * recall / (b * precision + recall)`. -/
def calculate_fbeta_score (precision recl beta : ℚ) : ℚ :=
  let b := beta ^ 2
  (1 + b) * precision * recl / (b * precision + recl)

/-- `np.diff`: consecutive differences. -/
def np_diff (l : List ℚ) : List ℚ := (l.zip l.tail).map (fun p => p.2 - p.1)

/-- `calculate_average_precision` of `benchmark_utils.py`:
`lowest_sens = df['Sensitivity'][df.last_valid_index()]` (the last row of
the ascending table), `sdiff = append(lowest_sens, diff(sens reversed))`,
result `sum(nan_to_num(precision reversed) * sdiff)`.  In `ℚ` the
precision entries are already 0 exactly where the float would be NaN, which
is what `np.nan_to_num` produces. -/
def calculate_average_precision (rows : List StatRow) : ℚ :=
  let sensAsc := rows.map (fun r => r.sens)
  let sensR := sensAsc.reverse
  let precR := (rows.map (fun r => r.prec)).reverse
  let lowest_sens := sensAsc.getLast?.getD 0
  ((precR.zip (lowest_sens :: np_diff sensR)).map (fun q => q.1 * q.2)).sum

/-- Sensitivity/precision pair of a row, the only data average precision
uses. -/
def statPair (r : StatRow) : ℚ × ℚ := (r.sens, r.prec)

/-- Sensitivity of the first element of a pair list, 0 past the end. -/
def nextSens : List (ℚ × ℚ) → ℚ
  | [] => 0
  | (s, _) :: _ => s

/-- Average precision as a right-to-left walk over the ascending table:
each row contributes `precision * (own sensitivity - next row's
sensitivity)`, with sensitivity 0 past the last row. -/
def apFwd : List (ℚ × ℚ) → ℚ
  | [] => 0
  | q :: rest => q.2 * (q.1 - nextSens rest) + apFwd rest

/-- Delta walk over reversed (descending-threshold) pairs, starting from a
previous sensitivity: each element contributes
`precision * (sensitivity - previous sensitivity)`. -/
def apDeltaWalk : ℚ → List (ℚ × ℚ) → ℚ
  | _, [] => 0
  | prev, (s, p) :: rest => p * (s - prev) + apDeltaWalk s rest

/-- Average precision as claim C4 words it: walk the rows in reversed
(last-ascending-row-first) order; the first delta is seeded with the
sensitivity of the row with the globally lowest threshold (the FIRST row of
the ascending table), later deltas are true differences in the reversed
order. -/
def apClaimFormula (rows : List StatRow) : ℚ :=
  match (rows.reverse.map statPair) with
  | [] => 0
  | (_, p₁) :: rest =>
    p₁ * ((rows.map (fun r => r.sens)).head?.getD 0) +
      apDeltaWalk (nextSens ((rows.reverse.map statPair))) rest

/-- Average precision with the seed the code actually uses: the first delta
is the sensitivity of the row with the globally highest threshold (the last
ascending row, the first element of the reversed walk, the lowest observed
sensitivity), and every later delta is a true difference in reversed
order. -/
def apAmendedFormula (rows : List StatRow) : ℚ :=
  match (rows.reverse.map statPair) with
  | [] => 0
  | (s₁, p₁) :: rest => p₁ * s₁ + apDeltaWalk s₁ rest

/-- The worked example of the specification:
`{0: {REF:10, CONTAM:5}, 1: {REF:2, CONTAM:8}}`. -/
def exC3counts : List CountEntry := [⟨0, 10, 5⟩, ⟨1, 2, 8⟩]

/-- A mapping with a count that three significant digits cannot represent. -/
def cexC3counts : List CountEntry := [⟨0, 0, 1001⟩]

/-- Counts giving a row with precision 1 and sensitivity 1/2. -/
def exC2counts : List CountEntry := [⟨0, 1, 1⟩, ⟨1, 0, 1⟩]

/-- Counts whose lowest-threshold row and highest-threshold row have
different sensitivities (1 versus 1/2). -/
def exC4counts : List CountEntry := [⟨0, 0, 1⟩, ⟨1, 0, 1⟩]

/-- A no-op entry (both counts zero) at a threshold not in `exC3counts`. -/
def zC9 : CountEntry := ⟨2, 0, 0⟩

/-- The score example string of the specification. -/
def str2I3M : String := "2I3M"

/-- A malformed CIGAR string: the tail `Q` matches no token. -/
def str3MQ : String := "3MQ"

/-- The MD-tag example of the specification. -/
def mdExample : String := "10A5^AC3"

/-- Token list whose encoding is `2I3M`. -/
def w1toks : List (Nat × Char) := [(2, 'I'), (3, 'M')]

/-- Cigar tuples containing an unknown operator code 11 twice. -/
def w7tups : List (Nat × Nat) := [(11, 5), (0, 3), (11, 2)]

/-! ### List scanning helpers -/

theorem dropWhile_len_le {α : Type} (p : α → Bool) :
    ∀ l : List α, (l.dropWhile p).length ≤ l.length := by
  intro l
  induction l with
  | nil => simp
  | cons x xs ih =>
    by_cases h : p x
    · simp [List.dropWhile, h]
      omega
    · simp [List.dropWhile, h]

theorem takeWhile_append_all {α : Type} (p : α → Bool) (c : α) (hc : p c = false) :
    ∀ l r : List α, (∀ x ∈ l, p x = true) →
      (l ++ c :: r).takeWhile p = l ∧ (l ++ c :: r).dropWhile p = c :: r := by
  intro l
  induction l with
  | nil =>
    intro r _
    constructor
    · simp [List.takeWhile, hc]
    · simp [List.dropWhile, hc]
  | cons x xs ih =>
    intro r hall
    have hx : p x = true := hall x (by simp)
    obtain ⟨h1, h2⟩ := ih r (fun y hy => hall y (by simp [hy]))
    constructor
    · simp only [List.cons_append, List.takeWhile_cons, hx]
      simp [h1]
    · simp only [List.cons_append, List.dropWhile_cons, hx]
      simp [h2]

theorem mem_takeWhile_sat {α : Type} (p : α → Bool) :
    ∀ l : List α, ∀ x ∈ l.takeWhile p, p x = true := by
  intro l
  induction l with
  | nil => simp
  | cons a as ih =>
    intro x hx
    by_cases ha : p a
    · rw [List.takeWhile_cons, if_pos ha] at hx
      rcases List.mem_cons.mp hx with rfl | hx'
      · exact ha
      · exact ih x hx'
    · rw [List.takeWhile_cons, if_neg ha] at hx
      simp at hx

/-! ### Fuel congruence for the regex scanners -/

theorem cigarFindAllF_fuel :
    ∀ f g l, l.length ≤ f → l.length ≤ g → cigarFindAllF f l = cigarFindAllF g l := by
  intro f
  induction f with
  | zero =>
    intro g l h1 _
    have : l = [] := List.length_eq_zero.mp (by omega)
    subst this
    cases g <;> rfl
  | succ f ih =>
    intro g l h1 h2
    cases l with
    | nil => cases g <;> rfl
    | cons c cs =>
      cases g with
      | zero => simp at h2
      | succ g' =>
        simp only [List.length_cons] at h1 h2
        simp only [cigarFindAllF]
        by_cases hd : c.isDigit
        · simp only [hd, if_true]
          have hdw : (c :: cs).dropWhile Char.isDigit = cs.dropWhile Char.isDigit := by
            simp [List.dropWhile_cons, hd]
          cases hrest : (c :: cs).dropWhile Char.isDigit with
          | nil => exact ih g' cs (by omega) (by omega)
          | cons d ds =>
            have hds : ds.length + 1 ≤ cs.length := by
              have := dropWhile_len_le Char.isDigit cs
              rw [hdw] at hrest
              rw [hrest] at this
              simpa using this
            by_cases hop : isCigarOp d
            · simp only [hop, if_true]
              rw [ih g' ds (by omega) (by omega)]
            · simp only [hop]
              simp only [Bool.false_eq_true, if_false]
              exact ih g' cs (by omega) (by omega)
        · simp only [hd]
          simp only [Bool.false_eq_true, if_false]
          exact ih g' cs (by omega) (by omega)

theorem mdFindAllF_fuel :
    ∀ f g l, l.length ≤ f → l.length ≤ g → mdFindAllF f l = mdFindAllF g l := by
  intro f
  induction f with
  | zero =>
    intro g l h1 _
    have : l = [] := List.length_eq_zero.mp (by omega)
    subst this
    cases g <;> rfl
  | succ f ih =>
    intro g l h1 h2
    cases l with
    | nil => cases g <;> rfl
    | cons c cs =>
      cases g with
      | zero => simp at h2
      | succ g' =>
        simp only [List.length_cons] at h1 h2
        simp only [mdFindAllF]
        by_cases ha : isAsciiAlpha c
        · simp only [ha, if_true]
          have hdw : (c :: cs).dropWhile isAsciiAlpha = cs.dropWhile isAsciiAlpha := by
            simp [List.dropWhile_cons, ha]
          have hlen : ((c :: cs).dropWhile isAsciiAlpha).length ≤ cs.length := by
            rw [hdw]; exact dropWhile_len_le _ cs
          rw [ih g' _ (by omega) (by omega)]
        · simp only [ha]
          simp only [Bool.false_eq_true, if_false]
          by_cases hh : c = '^'
          · simp only [hh, if_true]
            cases cs with
            | nil => rfl
            | cons d ds =>
              by_cases hda : isAsciiAlpha d
              · simp only [hda, if_true]
                simp only [List.length_cons] at h1 h2
                rw [ih g' ds (by omega) (by omega)]
              · simp only [hda]
                simp only [Bool.false_eq_true, if_false]
                exact ih g' (d :: ds)
                  (by simp only [List.length_cons] at h1 ⊢; omega)
                  (by simp only [List.length_cons] at h2 ⊢; omega)
          · simp only [hh, if_false]
            exact ih g' cs (by omega) (by omega)

/-! ### Decimal digits -/

theorem natToDigitsAux_zero : ∀ f acc, natToDigitsAux f 0 acc = acc := by
  intro f acc
  cases f <;> simp [natToDigitsAux]

theorem digitChar_val : ∀ m : Nat, m < 10 →
    digitVal (Nat.digitChar m) = m ∧ (Nat.digitChar m).isDigit = true := by
  intro m hm
  interval_cases m <;> exact ⟨by decide, by decide⟩

theorem natToDigitsAux_spec : ∀ n f acc, 0 < n → n ≤ f →
    ∃ ds, natToDigitsAux f n acc = ds ++ acc ∧ ds ≠ [] ∧
      (∀ c ∈ ds, c.isDigit = true) ∧ digitsToNat ds = n := by
  intro n
  induction n using Nat.strong_induction_on with
  | _ n ih =>
    intro f acc hp hf
    obtain ⟨f', rfl⟩ : ∃ f', f = f' + 1 := ⟨f - 1, by omega⟩
    rw [natToDigitsAux, if_neg (by omega)]
    by_cases h10 : n < 10
    · have hz : n / 10 = 0 := by omega
      rw [hz, natToDigitsAux_zero]
      refine ⟨[Nat.digitChar (n % 10)], rfl, by simp, ?_, ?_⟩
      · intro c hc
        simp at hc
        subst hc
        exact (digitChar_val _ (Nat.mod_lt _ (by omega))).2
      · have := (digitChar_val (n % 10) (Nat.mod_lt _ (by omega))).1
        simp [digitsToNat, this]
        omega
    · have hdiv_lt : n / 10 < n := Nat.div_lt_self (by omega) (by omega)
      have hdp : 0 < n / 10 := Nat.div_pos (by omega) (by omega)
      have hfle : n / 10 ≤ f' := by omega
      obtain ⟨ds', heq, _, hdig, hval⟩ :=
        ih (n / 10) hdiv_lt f' (Nat.digitChar (n % 10) :: acc) hdp hfle
      refine ⟨ds' ++ [Nat.digitChar (n % 10)], ?_, by simp, ?_, ?_⟩
      · rw [heq]
        simp
      · intro c hc
        rcases List.mem_append.mp hc with h | h
        · exact hdig c h
        · simp at h
          subst h
          exact (digitChar_val _ (Nat.mod_lt _ (by omega))).2
      · have hsplit : digitsToNat (ds' ++ [Nat.digitChar (n % 10)]) =
            10 * digitsToNat ds' + digitVal (Nat.digitChar (n % 10)) := by
          simp [digitsToNat, List.foldl_append]
        rw [hsplit, hval, (digitChar_val _ (Nat.mod_lt _ (by omega))).1]
        omega

theorem natDigits_spec (n : Nat) :
    natDigits n ≠ [] ∧ (∀ c ∈ natDigits n, c.isDigit = true) ∧
      digitsToNat (natDigits n) = n := by
  by_cases h : n = 0
  · subst h
    exact ⟨by decide, by decide, by decide⟩
  · unfold natDigits
    rw [if_neg h]
    obtain ⟨ds, heq, hne, hdig, hval⟩ := natToDigitsAux_spec n (n + 1) [] (by omega) (by omega)
    rw [heq]
    simpa using ⟨hne, hdig, hval⟩

/-! ### Alphabet facts -/

theorem isCigarOp_cases (c : Char) (h : isCigarOp c = true) :
    c = 'M' ∨ c = 'I' ∨ c = 'D' ∨ c = 'N' ∨ c = 'S' ∨ c = 'H' ∨ c = 'P' ∨
      c = '=' ∨ c = 'X' ∨ c = 'B' := by
  have hm : c ∈ cigarAlphabet := by
    simpa [isCigarOp, List.contains] using h
  simpa [cigarAlphabet] using hm

theorem isCigarOp_not_digit (c : Char) (h : isCigarOp c = true) : c.isDigit = false := by
  rcases isCigarOp_cases c h with rfl|rfl|rfl|rfl|rfl|rfl|rfl|rfl|rfl|rfl <;> decide

theorem opLetter_cigar2code (c : Char) (h : isCigarOp c = true) :
    opLetter (cigar2code c) = c := by
  rcases isCigarOp_cases c h with rfl|rfl|rfl|rfl|rfl|rfl|rfl|rfl|rfl|rfl <;> decide

/-! ### Behaviour of the CIGAR scanner on well-formed text -/

theorem cigarFindAll_cons_tok (run : List Char) (c : Char) (rest : List Char)
    (hne : run ≠ []) (hdig : ∀ x ∈ run, x.isDigit = true) (hop : isCigarOp c = true) :
    cigarFindAll (run ++ c :: rest) = (run, c) :: cigarFindAll rest := by
  obtain ⟨d, ds, rfl⟩ : ∃ d ds, run = d :: ds := by
    cases run with
    | nil => exact absurd rfl hne
    | cons d ds => exact ⟨d, ds, rfl⟩
  have hcnd : c.isDigit = false := isCigarOp_not_digit c hop
  obtain ⟨htake, hdrop⟩ := takeWhile_append_all Char.isDigit c hcnd (d :: ds) rest hdig
  have hd : d.isDigit = true := hdig d (by simp)
  unfold cigarFindAll
  have hlen : ((d :: ds) ++ c :: rest).length = (ds ++ c :: rest).length + 1 := by
    simp
  rw [hlen]
  have hshape : (d :: ds) ++ c :: rest = d :: (ds ++ c :: rest) := by simp
  rw [hshape]
  simp only [cigarFindAllF, hd, if_true]
  rw [List.cons_append] at htake hdrop
  simp only [hdrop, htake, hop, if_true]
  have : cigarFindAllF (ds ++ c :: rest).length rest = cigarFindAllF rest.length rest := by
    apply cigarFindAllF_fuel
    · simp
      omega
    · omega
  rw [this]

theorem cigarFindAll_encode : ∀ toks : List (Nat × Char),
    (∀ t ∈ toks, isCigarOp t.2 = true) →
    cigarFindAll (encodeToks toks) = toks.map (fun t => (natDigits t.1, t.2)) := by
  intro toks
  induction toks with
  | nil => intro _; rfl
  | cons t ts ih =>
    intro h
    have hop := h t (by simp)
    have hspec := natDigits_spec t.1
    show cigarFindAll (natDigits t.1 ++ t.2 :: encodeToks ts) = _
    rw [cigarFindAll_cons_tok _ _ _ hspec.1 hspec.2.1 hop,
      ih (fun x hx => h x (by simp [hx]))]
    rfl

theorem decode_encodeToks : ∀ toks : List (Nat × Char),
    (∀ t ∈ toks, isCigarOp t.2 = true) →
    cigarstring_to_tuples (String.mk (encodeToks toks)) =
      toks.map (fun t => (cigar2code t.2, t.1)) := by
  intro toks h
  show (cigarFindAll (encodeToks toks)).map _ = _
  rw [cigarFindAll_encode toks h, List.map_map]
  induction toks with
  | nil => rfl
  | cons t ts ih =>
    have hval := (natDigits_spec t.1).2.2
    simp only [List.map_cons, Function.comp]
    rw [hval]
    congr 1
    exact ih (fun x hx => h x (by simp [hx]))

theorem encodeOps_decode : ∀ toks : List (Nat × Char),
    (∀ t ∈ toks, isCigarOp t.2 = true) →
    encodeOps (toks.map (fun t => (cigar2code t.2, t.1))) = encodeToks toks := by
  intro toks
  induction toks with
  | nil => intro _; rfl
  | cons t ts ih =>
    intro h
    have hop := h t (by simp)
    simp only [List.map_cons, encodeOps, encodeToks]
    rw [opLetter_cigar2code t.2 hop, ih (fun x hx => h x (by simp [hx]))]

/-! ### Scoring: score, warned-set and warning log of a run -/

theorem scoreFold_score : ∀ (l : List (Nat × Nat)) (acc : ScoreAcc),
    (l.foldl scoreStep acc).score = acc.score + (l.map opContribution).sum := by
  intro l
  induction l with
  | nil => intro acc; simp
  | cons c cs ih =>
    intro acc
    rw [List.foldl_cons, ih]
    cases hsc : cigar_score c.1 with
    | some f =>
      simp [scoreStep, hsc, opContribution]
      omega
    | none =>
      simp only [scoreStep, hsc, opContribution, List.map_cons, List.sum_cons]
      split <;> simp

theorem scoreFold_state : ∀ (l : List (Nat × Nat)) (acc : ScoreAcc),
    (l.foldl scoreStep acc).log = acc.log ++ newWarns acc.warned l ∧
      (l.foldl scoreStep acc).warned = warnedAfter acc.warned l := by
  intro l
  induction l with
  | nil => intro acc; simp [newWarns, warnedAfter]
  | cons c cs ih =>
    intro acc
    rw [List.foldl_cons]
    cases hsc : cigar_score c.1 with
    | some f =>
      have hstep : scoreStep acc c = { acc with score := acc.score + f (c.2 : Int) } := by
        simp [scoreStep, hsc]
      rw [hstep]
      obtain ⟨h1, h2⟩ := ih { acc with score := acc.score + f (c.2 : Int) }
      simp only [newWarns, warnedAfter, hsc]
      exact ⟨h1, h2⟩
    | none =>
      by_cases hw : c.1 ∈ acc.warned
      · have hstep : scoreStep acc c = acc := by
          simp [scoreStep, hsc, hw]
        rw [hstep]
        obtain ⟨h1, h2⟩ := ih acc
        simp only [newWarns, warnedAfter, hsc, if_pos hw]
        exact ⟨h1, h2⟩
      · have hstep : scoreStep acc c =
            { acc with warned := c.1 :: acc.warned, log := acc.log ++ [c.1] } := by
          simp [scoreStep, hsc, hw]
        rw [hstep]
        obtain ⟨h1, h2⟩ :=
          ih { acc with warned := c.1 :: acc.warned, log := acc.log ++ [c.1] }
        simp only [newWarns, warnedAfter, hsc, if_neg hw]
        refine ⟨?_, h2⟩
        rw [h1]
        simp

theorem newWarns_count : ∀ (k : Nat), cigar_score k = none → ∀ (l : List (Nat × Nat)) w,
    (newWarns w l).count k = if k ∉ w ∧ k ∈ l.map Prod.fst then 1 else 0 := by
  intro k hk l
  induction l with
  | nil => intro w; simp [newWarns]
  | cons c cs ih =>
    intro w
    simp only [newWarns]
    cases hsc : cigar_score c.1 with
    | some f =>
      have hne : ¬(k = c.1) := by
        intro he
        rw [← he, hk] at hsc
        cases hsc
      rw [ih w]
      by_cases hw2 : k ∈ w <;> by_cases hm : k ∈ List.map Prod.fst cs <;>
        simp [hw2, hm, hne]
    | none =>
      by_cases hw : c.1 ∈ w
      · rw [if_pos hw, ih w]
        by_cases hck : k = c.1
        · subst hck
          simp [hw]
        · by_cases hm : k ∈ List.map Prod.fst cs <;> by_cases hw2 : k ∈ w <;>
            simp [hw2, hm, hck]
      · rw [if_neg hw]
        rw [List.count_cons, ih (c.1 :: w)]
        by_cases hck : k = c.1
        · subst hck
          simp [hw]
        · have hcks : ¬(c.1 = k) := fun h => hck h.symm
          by_cases hm : k ∈ List.map Prod.fst cs <;> by_cases hw2 : k ∈ w <;>
            simp [hw2, hm, hck, hcks]

theorem opContribution_filter : ∀ l : List (Nat × Nat),
    (l.map opContribution).sum =
      ((l.filter (fun c => (cigar_score c.1).isSome)).map opContribution).sum := by
  intro l
  induction l with
  | nil => rfl
  | cons c cs ih =>
    cases hsc : cigar_score c.1 with
    | some f =>
      simp only [List.filter_cons, hsc, Option.isSome_some, if_true,
        List.map_cons, List.sum_cons, ih]
    | none =>
      have hz : opContribution c = 0 := by simp [opContribution, hsc]
      simp only [List.filter_cons, hsc, Option.isSome_none, List.map_cons,
        List.sum_cons, hz, ih]
      simp

/-! ### MD tag: the scanner counts letters not preceded by a caret -/

theorem alpha_ne_hat (a : Char) (h : isAsciiAlpha a = true) : ¬(a = '^') := by
  intro he
  subst he
  simp [isAsciiAlpha] at h

theorem mdCount_run : ∀ (run : List Char), run ≠ [] →
    (∀ x ∈ run, isAsciiAlpha x = true) →
    ∀ (rest : List Char) (prev : Option Char), (prev == some '^') = false →
    ∃ a, isAsciiAlpha a = true ∧
      mdCountAux prev (run ++ rest) = run.length + mdCountAux (some a) rest := by
  intro run
  induction run with
  | nil => intro h; exact absurd rfl h
  | cons x xs ih =>
    intro _ hall rest prev hprev
    have hx : isAsciiAlpha x = true := hall x (by simp)
    cases xs with
    | nil =>
      refine ⟨x, hx, ?_⟩
      simp [mdCountAux, hx, hprev]
    | cons y ys =>
      have hxs : (y :: ys : List Char) ≠ [] := by simp
      have hbx : ((some x : Option Char) == some '^') = false := by
        have := alpha_ne_hat x hx
        simp [this]
      obtain ⟨a, ha, heq⟩ := ih hxs (fun z hz => hall z (by simp [hz])) rest (some x) hbx
      refine ⟨a, ha, ?_⟩
      have hstep : mdCountAux prev ((x :: y :: ys) ++ rest) =
          (if isAsciiAlpha x && !(prev == some '^') then 1 else 0) +
            mdCountAux (some x) ((y :: ys) ++ rest) := rfl
      rw [hstep, heq]
      simp [hx, hprev]
      omega

theorem mdTokenSum_spec : ∀ f (l : List Char) (prev : Option Char), l.length ≤ f →
    ((prev == some '^') = true → ∀ c, l.head? = some c → isAsciiAlpha c = false) →
    mdTokenSum (mdFindAllF f l) = mdCountAux prev l := by
  intro f
  induction f with
  | zero =>
    intro l prev h1 _
    have : l = [] := List.length_eq_zero.mp (by omega)
    subst this
    rfl
  | succ f ih =>
    intro l prev h1 hprev
    cases l with
    | nil => rfl
    | cons c cs =>
      simp only [List.length_cons] at h1
      by_cases hc : isAsciiAlpha c
      · have hprevf : (prev == some '^') = false := by
          cases hb : (prev == some '^') with
          | false => rfl
          | true =>
            have := hprev hb c rfl
            rw [this] at hc
            simp at hc
        simp only [mdFindAllF, hc, if_true]
        have hsplit := List.takeWhile_append_dropWhile (p := isAsciiAlpha) (l := c :: cs)
        have hrun_ne : (c :: cs).takeWhile isAsciiAlpha ≠ [] := by
          simp [List.takeWhile_cons, hc]
        have hrun_all := mem_takeWhile_sat isAsciiAlpha (c :: cs)
        have hdlen : ((c :: cs).dropWhile isAsciiAlpha).length ≤ cs.length := by
          have : (c :: cs).dropWhile isAsciiAlpha = cs.dropWhile isAsciiAlpha := by
            simp [List.dropWhile_cons, hc]
          rw [this]
          exact dropWhile_len_le _ cs
      -- token is the run; count in mdTokenSum is its length
        obtain ⟨a, ha, hcount⟩ :=
          mdCount_run ((c :: cs).takeWhile isAsciiAlpha) hrun_ne hrun_all
            ((c :: cs).dropWhile isAsciiAlpha) prev hprevf
        have hihyp : ((some a : Option Char) == some '^') = true →
            ∀ c', ((c :: cs).dropWhile isAsciiAlpha).head? = some c' →
              isAsciiAlpha c' = false := by
          intro hb
          have := alpha_ne_hat a ha
          simp [this] at hb
        have hih := ih ((c :: cs).dropWhile isAsciiAlpha) (some a) (by omega) hihyp
        have hhead : (c :: cs).takeWhile isAsciiAlpha = c :: cs.takeWhile isAsciiAlpha := by
          simp [List.takeWhile_cons, hc]
        calc mdTokenSum ((c :: cs).takeWhile isAsciiAlpha ::
              mdFindAllF f ((c :: cs).dropWhile isAsciiAlpha))
            = ((c :: cs).takeWhile isAsciiAlpha).length +
              mdTokenSum (mdFindAllF f ((c :: cs).dropWhile isAsciiAlpha)) := by
              rw [hhead]
              simp [mdTokenSum, hc]
          _ = ((c :: cs).takeWhile isAsciiAlpha).length +
              mdCountAux (some a) ((c :: cs).dropWhile isAsciiAlpha) := by rw [hih]
          _ = mdCountAux prev ((c :: cs).takeWhile isAsciiAlpha ++
              (c :: cs).dropWhile isAsciiAlpha) := by rw [hcount]
          _ = mdCountAux prev (c :: cs) := by rw [hsplit]
      · have hc0 : isAsciiAlpha c = false := by
          cases h : isAsciiAlpha c with
          | false => rfl
          | true => exact absurd h hc
        by_cases hh : c = '^'
        · subst hh
          simp only [mdFindAllF, hc0]
          simp only [Bool.false_eq_true, if_false, if_true]
          cases cs with
          | nil =>
            simp [mdTokenSum, mdCountAux, hc0]
          | cons d ds =>
            simp only [List.length_cons] at h1
            by_cases hd : isAsciiAlpha d
            · simp only [hd, if_true]
              have hdh : ¬(d = '^') := alpha_ne_hat d hd
              have hih := ih ds (some d) (by omega) (by
                intro hb
                simp [hdh] at hb)
              calc mdTokenSum ([('^' : Char), d] :: mdFindAllF f ds)
                  = mdTokenSum (mdFindAllF f ds) := by
                    simp [mdTokenSum, isAsciiAlpha]
                _ = mdCountAux (some d) ds := hih
                _ = mdCountAux prev ('^' :: d :: ds) := by
                    simp [mdCountAux, hc0, hd]
            · simp only [hd]
              simp only [Bool.false_eq_true, if_false]
              have hih := ih (d :: ds) (some '^') (by simp; omega) (by
                intro _ c' hc'
                simp at hc'
                subst hc'
                cases h : isAsciiAlpha d with
                | false => rfl
                | true => exact absurd h hd)
              rw [hih]
              simp [mdCountAux, hc0]
        · simp only [mdFindAllF, hc0]
          simp only [Bool.false_eq_true, if_false, hh]
          have hih := ih cs (some c) (by omega) (by
            intro hb
            simp [hh] at hb)
          rw [hih]
          simp [mdCountAux, hc0]

/-! ### Benchmark table: sums, sorting, row structure -/

theorem g3_zero : g3 0 = 0 := by decide

theorem sumContam_append : ∀ l₁ l₂ : List CountEntry,
    sumContam (l₁ ++ l₂) = sumContam l₁ + sumContam l₂ := by
  intro l₁ l₂
  induction l₁ with
  | nil => simp [sumContam]
  | cons e rest ih => simp [sumContam, ih]; omega

theorem sumRef_append : ∀ l₁ l₂ : List CountEntry,
    sumRef (l₁ ++ l₂) = sumRef l₁ + sumRef l₂ := by
  intro l₁ l₂
  induction l₁ with
  | nil => simp [sumRef]
  | cons e rest ih => simp [sumRef, ih]; omega

theorem sumContam_eq_sum_map : ∀ l : List CountEntry,
    sumContam l = (l.map (fun e => g3 e.contam)).sum := by
  intro l
  induction l with
  | nil => rfl
  | cons e rest ih => simp [sumContam, ih]

theorem sumRef_eq_sum_map : ∀ l : List CountEntry,
    sumRef l = (l.map (fun e => g3 e.ref)).sum := by
  intro l
  induction l with
  | nil => rfl
  | cons e rest ih => simp [sumRef, ih]

theorem insertRow_perm (z : CountEntry) : ∀ l, (insertRow z l).Perm (z :: l) := by
  intro l
  induction l with
  | nil => exact List.Perm.refl _
  | cons x xs ih =>
    by_cases h : z.thr ≤ x.thr
    · rw [insertRow, if_pos h]
    · rw [insertRow, if_neg h]
      exact (ih.cons x).trans (List.Perm.swap z x xs)

theorem sortRows_perm : ∀ l, (sortRows l).Perm l := by
  intro l
  induction l with
  | nil => exact List.Perm.refl _
  | cons x xs ih =>
    show (insertRow x (sortRows xs)).Perm (x :: xs)
    exact (insertRow_perm x (sortRows xs)).trans (ih.cons x)

theorem insertRow_sorted (z : CountEntry) : ∀ l,
    l.Pairwise (fun a b => a.thr ≤ b.thr) →
    (insertRow z l).Pairwise (fun a b => a.thr ≤ b.thr) := by
  intro l
  induction l with
  | nil => intro _; simp [insertRow]
  | cons x xs ih =>
    intro h
    rw [List.pairwise_cons] at h
    obtain ⟨hx, hxs⟩ := h
    by_cases hle : z.thr ≤ x.thr
    · rw [insertRow, if_pos hle]
      rw [List.pairwise_cons]
      refine ⟨?_, List.pairwise_cons.mpr ⟨hx, hxs⟩⟩
      intro b hb
      rcases List.mem_cons.mp hb with rfl | hb'
      · exact hle
      · exact le_trans hle (hx b hb')
    · rw [insertRow, if_neg hle]
      rw [List.pairwise_cons]
      refine ⟨?_, ih hxs⟩
      intro b hb
      have hb2 := (insertRow_perm z xs).mem_iff.mp hb
      rcases List.mem_cons.mp hb2 with rfl | hb'
      · omega
      · exact hx b hb'

theorem sortRows_sorted : ∀ l, (sortRows l).Pairwise (fun a b => a.thr ≤ b.thr) := by
  intro l
  induction l with
  | nil => simp [sortRows]
  | cons x xs ih => exact insertRow_sorted x (sortRows xs) ih

theorem insertRow_cons (z x : CountEntry) (xs : List CountEntry) :
    insertRow z (x :: xs) = if z.thr ≤ x.thr then z :: x :: xs else x :: insertRow z xs := rfl

theorem insertRow_comm (a z : CountEntry) (hab : a.thr ≠ z.thr) :
    ∀ m, insertRow a (insertRow z m) = insertRow z (insertRow a m) := by
  intro m
  induction m with
  | nil =>
    show insertRow a [z] = insertRow z [a]
    by_cases h1 : a.thr ≤ z.thr
    · rw [insertRow_cons, if_pos h1, insertRow_cons, if_neg (by omega)]
      rfl
    · rw [insertRow_cons, if_neg h1, insertRow_cons, if_pos (by omega)]
      rfl
  | cons x xs ih =>
    by_cases hzx : z.thr ≤ x.thr <;> by_cases hax : a.thr ≤ x.thr
    · by_cases haz : a.thr ≤ z.thr
      · have e1 : insertRow a (insertRow z (x :: xs)) = a :: z :: x :: xs := by
          rw [insertRow_cons z x xs, if_pos hzx, insertRow_cons, if_pos haz]
        have e2 : insertRow z (insertRow a (x :: xs)) = a :: z :: x :: xs := by
          rw [insertRow_cons a x xs, if_pos hax, insertRow_cons, if_neg (by omega),
            insertRow_cons, if_pos hzx]
        rw [e1, e2]
      · have e1 : insertRow a (insertRow z (x :: xs)) = z :: a :: x :: xs := by
          rw [insertRow_cons z x xs, if_pos hzx, insertRow_cons, if_neg haz,
            insertRow_cons, if_pos hax]
        have e2 : insertRow z (insertRow a (x :: xs)) = z :: a :: x :: xs := by
          rw [insertRow_cons a x xs, if_pos hax, insertRow_cons, if_pos (by omega)]
        rw [e1, e2]
    · have e1 : insertRow a (insertRow z (x :: xs)) = z :: x :: insertRow a xs := by
        rw [insertRow_cons z x xs, if_pos hzx, insertRow_cons, if_neg (by omega),
          insertRow_cons, if_neg hax]
      have e2 : insertRow z (insertRow a (x :: xs)) = z :: x :: insertRow a xs := by
        rw [insertRow_cons a x xs, if_neg hax, insertRow_cons, if_pos hzx]
      rw [e1, e2]
    · have e1 : insertRow a (insertRow z (x :: xs)) = a :: x :: insertRow z xs := by
        rw [insertRow_cons z x xs, if_neg hzx, insertRow_cons, if_pos hax]
      have e2 : insertRow z (insertRow a (x :: xs)) = a :: x :: insertRow z xs := by
        rw [insertRow_cons a x xs, if_pos hax, insertRow_cons, if_neg (by omega),
          insertRow_cons, if_neg hzx]
      rw [e1, e2]
    · have e1 : insertRow a (insertRow z (x :: xs)) = x :: insertRow a (insertRow z xs) := by
        rw [insertRow_cons z x xs, if_neg hzx, insertRow_cons, if_neg hax]
      have e2 : insertRow z (insertRow a (x :: xs)) = x :: insertRow z (insertRow a xs) := by
        rw [insertRow_cons a x xs, if_neg hax, insertRow_cons, if_neg hzx]
      rw [e1, e2, ih]

theorem sortRows_append_single (z : CountEntry) : ∀ l : List CountEntry,
    (∀ e ∈ l, e.thr ≠ z.thr) → sortRows (l ++ [z]) = insertRow z (sortRows l) := by
  intro l
  induction l with
  | nil => intro _; rfl
  | cons a l' ih =>
    intro h
    show insertRow a (sortRows (l' ++ [z])) = insertRow z (insertRow a (sortRows l'))
    rw [ih (fun e he => h e (by simp [he]))]
    exact insertRow_comm a z (h a (by simp)) (sortRows l')

theorem insertRow_split (z : CountEntry) : ∀ m : List CountEntry,
    ∃ l₁ l₂, m = l₁ ++ l₂ ∧ insertRow z m = l₁ ++ z :: l₂ := by
  intro m
  induction m with
  | nil => exact ⟨[], [], rfl, rfl⟩
  | cons x xs ih =>
    by_cases h : z.thr ≤ x.thr
    · refine ⟨[], x :: xs, rfl, ?_⟩
      rw [insertRow_cons, if_pos h]
      rfl
    · obtain ⟨l₁, l₂, he, hi⟩ := ih
      refine ⟨x :: l₁, l₂, by rw [he]; rfl, ?_⟩
      rw [insertRow_cons, if_neg h, hi]
      rfl

theorem buildRows_append (tC tR : Nat) : ∀ (l₁ tail : List CountEntry),
    buildRows tC tR (l₁ ++ tail) = buildPre tC tR tail l₁ ++ buildRows tC tR tail := by
  intro l₁ tail
  induction l₁ with
  | nil => rfl
  | cons e rest ih =>
    show rowOf tC tR e (rest ++ tail) :: buildRows tC tR (rest ++ tail) = _
    rw [ih]
    rfl

theorem rowOf_eq_of_sums (tC tR : Nat) (e : CountEntry) (rest rest' : List CountEntry)
    (h1 : sumContam rest = sumContam rest') (h2 : sumRef rest = sumRef rest') :
    rowOf tC tR e rest = rowOf tC tR e rest' := by
  unfold rowOf
  rw [h1, h2]

theorem buildPre_insert_zero (tC tR : Nat) (z : CountEntry) (hzr : z.ref = 0)
    (hzc : z.contam = 0) (l₂ : List CountEntry) : ∀ l₁ : List CountEntry,
    buildPre tC tR (z :: l₂) l₁ = buildPre tC tR l₂ l₁ := by
  intro l₁
  induction l₁ with
  | nil => rfl
  | cons e rest ih =>
    show rowOf tC tR e (rest ++ z :: l₂) :: buildPre tC tR (z :: l₂) rest = _
    rw [ih]
    have h1 : sumContam (rest ++ z :: l₂) = sumContam (rest ++ l₂) := by
      rw [sumContam_append, sumContam_append]
      simp [sumContam, hzc, g3_zero]
    have h2 : sumRef (rest ++ z :: l₂) = sumRef (rest ++ l₂) := by
      rw [sumRef_append, sumRef_append]
      simp [sumRef, hzr, g3_zero]
    rw [rowOf_eq_of_sums tC tR e _ _ h1 h2]
    rfl

theorem mem_buildRows (tC tR : Nat) : ∀ (l : List CountEntry) (r : StatRow),
    r ∈ buildRows tC tR l → ∃ l₁ e l₂, l = l₁ ++ e :: l₂ ∧ r = rowOf tC tR e l₂ := by
  intro l
  induction l with
  | nil => intro r hr; simp [buildRows] at hr
  | cons e rest ih =>
    intro r hr
    rcases List.mem_cons.mp hr with rfl | hr'
    · exact ⟨[], e, rest, rfl, rfl⟩
    · obtain ⟨l₁, e', l₂, he, hrow⟩ := ih r hr'
      exact ⟨e :: l₁, e', l₂, by rw [he]; rfl, hrow⟩

/-! ### Average precision: walk forms -/

theorem apDeltaWalk_cons (prev s p : ℚ) (rest : List (ℚ × ℚ)) :
    apDeltaWalk prev ((s, p) :: rest) = p * (s - prev) + apDeltaWalk s rest := rfl

theorem apFwd_cons (q : ℚ × ℚ) (rest : List (ℚ × ℚ)) :
    apFwd (q :: rest) = q.2 * (q.1 - nextSens rest) + apFwd rest := rfl

theorem nextSens_cons (q : ℚ × ℚ) (rest : List (ℚ × ℚ)) : nextSens (q :: rest) = q.1 := by
  obtain ⟨s, p⟩ := q
  rfl

theorem head_fst_nextSens : ∀ ps : List (ℚ × ℚ), ((ps.map Prod.fst).head?).getD 0 = nextSens ps := by
  intro ps
  cases ps with
  | nil => rfl
  | cons q rest => rw [nextSens_cons]; rfl

theorem zip_diff_walk : ∀ (rest : List (ℚ × ℚ)) (s₁ : ℚ),
    (((rest.map Prod.snd).zip (np_diff (s₁ :: rest.map Prod.fst))).map
      (fun q => q.1 * q.2)).sum = apDeltaWalk s₁ rest := by
  intro rest
  induction rest with
  | nil => intro s₁; rfl
  | cons q rest' ih =>
    intro s₁
    obtain ⟨s₂, p₂⟩ := q
    have hdiff : np_diff (s₁ :: (s₂, p₂).1 :: rest'.map Prod.fst) =
        (s₂ - s₁) :: np_diff (s₂ :: rest'.map Prod.fst) := rfl
    simp only [List.map_cons, hdiff, List.zip_cons_cons, List.sum_cons]
    rw [ih s₂, apDeltaWalk_cons]

theorem getLastD_cons_q : ∀ (L : List ℚ) (s prev : ℚ),
    ((s :: L).getLast?).getD prev = (L.getLast?).getD s := by
  intro L
  induction L with
  | nil => intro s prev; rfl
  | cons x xs ih =>
    intro s prev
    rw [List.getLast?_cons_cons, ih x prev, ih x s]

theorem apDeltaWalk_append_single : ∀ (A : List (ℚ × ℚ)) (q : ℚ × ℚ) (prev : ℚ),
    apDeltaWalk prev (A ++ [q]) =
      apDeltaWalk prev A + q.2 * (q.1 - ((A.map Prod.fst).getLast?).getD prev) := by
  intro A
  induction A with
  | nil =>
    intro q prev
    obtain ⟨s, p⟩ := q
    show apDeltaWalk prev [(s, p)] = _
    rw [apDeltaWalk_cons]
    have h0 : ∀ x : ℚ, apDeltaWalk x [] = 0 := fun _ => rfl
    rw [h0, h0]
    simp
  | cons a A' ih =>
    intro q prev
    obtain ⟨s, p⟩ := a
    show apDeltaWalk prev ((s, p) :: (A' ++ [q])) = _
    rw [apDeltaWalk_cons, ih q s, apDeltaWalk_cons]
    have : (((s, p).1 :: A'.map Prod.fst).getLast?).getD prev =
        ((A'.map Prod.fst).getLast?).getD s := getLastD_cons_q _ _ _
    rw [List.map_cons, this]
    ring

theorem walk_eq_fwd : ∀ ps : List (ℚ × ℚ), apDeltaWalk 0 ps.reverse = apFwd ps := by
  intro ps
  induction ps with
  | nil => rfl
  | cons q rest ih =>
    rw [List.reverse_cons, apDeltaWalk_append_single, ih, apFwd_cons]
    have h1 : (rest.reverse.map Prod.fst) = (rest.map Prod.fst).reverse := by
      rw [List.map_reverse]
    have h2 : (((rest.reverse.map Prod.fst).getLast?).getD 0) = nextSens rest := by
      rw [h1, List.getLast?_reverse, head_fst_nextSens]
    rw [h2]
    ring

theorem ap_eq_walk (rows : List StatRow) :
    calculate_average_precision rows = apDeltaWalk 0 (rows.reverse.map statPair) := by
  have hfst : (rows.reverse.map statPair).map Prod.fst =
      (rows.map (fun r => r.sens)).reverse := by
    rw [List.map_map, List.map_reverse]
    rfl
  have hsnd : (rows.reverse.map statPair).map Prod.snd =
      (rows.map (fun r => r.prec)).reverse := by
    rw [List.map_map, List.map_reverse]
    rfl
  have hlast : ((rows.map (fun r => r.sens)).getLast?).getD 0 =
      (((rows.reverse.map statPair).map Prod.fst).head?).getD 0 := by
    rw [hfst, List.head?_reverse]
  show (List.map (fun q => q.1 * q.2)
      (((rows.map (fun r => r.prec)).reverse).zip
        ((((rows.map (fun r => r.sens)).getLast?).getD 0) ::
          np_diff ((rows.map (fun r => r.sens)).reverse)))).sum = _
  rw [hlast, ← hfst, ← hsnd, head_fst_nextSens]
  cases hps : rows.reverse.map statPair with
  | nil => rfl
  | cons q rest =>
    obtain ⟨s₁, p₁⟩ := q
    have hns : nextSens ((s₁, p₁) :: rest) = s₁ := nextSens_cons _ _
    rw [hns]
    simp only [List.map_cons]
    have hdiff1 : np_diff ((s₁, p₁).1 :: rest.map Prod.fst) =
        np_diff (s₁ :: rest.map Prod.fst) := rfl
    rw [hdiff1]
    simp only [List.zip_cons_cons, List.map_cons, List.sum_cons]
    rw [zip_diff_walk rest s₁, apDeltaWalk_cons]
    ring

theorem ap_eq_fwd (rows : List StatRow) :
    calculate_average_precision rows = apFwd (rows.map statPair) := by
  rw [ap_eq_walk]
  have : rows.reverse.map statPair = (rows.map statPair).reverse := by
    rw [List.map_reverse]
  rw [this, walk_eq_fwd]

theorem nextSens_append_eq : ∀ (P Q Q' : List (ℚ × ℚ)), nextSens Q = nextSens Q' →
    nextSens (P ++ Q) = nextSens (P ++ Q') := by
  intro P Q Q' h
  cases P with
  | nil => exact h
  | cons q P' => rw [List.cons_append, List.cons_append, nextSens_cons, nextSens_cons]

theorem apFwd_insert : ∀ (P Q : List (ℚ × ℚ)) (zp : ℚ × ℚ), zp.1 = nextSens Q →
    apFwd (P ++ zp :: Q) = apFwd (P ++ Q) := by
  intro P
  induction P with
  | nil =>
    intro Q zp hz
    rw [List.nil_append, List.nil_append, apFwd_cons, hz]
    simp
  | cons q P' ih =>
    intro Q zp hz
    rw [List.cons_append, List.cons_append, apFwd_cons, apFwd_cons, ih Q zp hz]
    have : nextSens (P' ++ zp :: Q) = nextSens (P' ++ Q) := by
      apply nextSens_append_eq
      rw [nextSens_cons, hz]
    rw [this]

/-! ### Inserting a zero row does not change average precision -/

theorem rowOf_sens (tC tR : Nat) (e : CountEntry) (rest : List CountEntry) :
    (rowOf tC tR e rest).sens = ((g3 e.contam + sumContam rest : Nat) : ℚ) / (tC : ℚ) := rfl

theorem zp_sens (tC tR : Nat) (z : CountEntry) (hzc : z.contam = 0) (l₂ : List CountEntry) :
    (statPair (rowOf tC tR z l₂)).1 =
      nextSens ((buildRows tC tR l₂).map statPair) := by
  cases l₂ with
  | nil =>
    show (rowOf tC tR z []).sens = 0
    rw [rowOf_sens, hzc, g3_zero]
    norm_num [sumContam]
  | cons y ys =>
    have hb : buildRows tC tR (y :: ys) = rowOf tC tR y ys :: buildRows tC tR ys := rfl
    rw [hb, List.map_cons, nextSens_cons]
    show (rowOf tC tR z (y :: ys)).sens = (rowOf tC tR y ys).sens
    rw [rowOf_sens, rowOf_sens]
    have hnum : g3 z.contam + sumContam (y :: ys) = g3 y.contam + sumContam ys := by
      rw [hzc, g3_zero]
      show 0 + sumContam (y :: ys) = _
      rw [Nat.zero_add]
      rfl
    rw [hnum]

theorem apFwd_buildRows_insert (tC tR : Nat) (z : CountEntry) (hzr : z.ref = 0)
    (hzc : z.contam = 0) (l₁ l₂ : List CountEntry) :
    calculate_average_precision (buildRows tC tR (l₁ ++ z :: l₂)) =
      calculate_average_precision (buildRows tC tR (l₁ ++ l₂)) := by
  rw [ap_eq_fwd, ap_eq_fwd]
  rw [buildRows_append tC tR l₁ (z :: l₂), buildRows_append tC tR l₁ l₂]
  rw [buildPre_insert_zero tC tR z hzr hzc l₂ l₁]
  have hb : buildRows tC tR (z :: l₂) = rowOf tC tR z l₂ :: buildRows tC tR l₂ := rfl
  rw [hb, List.map_append, List.map_append, List.map_cons]
  exact apFwd_insert _ _ _ (zp_sens tC tR z hzc l₂)

theorem tableOf_insert_zero (counts : List CountEntry) (z : CountEntry) (hzr : z.ref = 0)
    (hzc : z.contam = 0) (hfresh : ∀ e ∈ counts, e.thr ≠ z.thr) :
    calculate_average_precision (tableOf (counts ++ [z])) =
      calculate_average_precision (tableOf counts) := by
  obtain ⟨l₁, l₂, hsplit, hins⟩ := insertRow_split z (sortRows counts)
  have hsorted : sortRows (counts ++ [z]) = l₁ ++ z :: l₂ := by
    rw [sortRows_append_single z counts hfresh, hins]
  have hC : sumContam (l₁ ++ z :: l₂) = sumContam (l₁ ++ l₂) := by
    rw [sumContam_append, sumContam_append]
    simp [sumContam, hzc, g3_zero]
  have hR : sumRef (l₁ ++ z :: l₂) = sumRef (l₁ ++ l₂) := by
    rw [sumRef_append, sumRef_append]
    simp [sumRef, hzr, g3_zero]
  unfold tableOf
  rw [hsorted, hsplit, hC, hR]
  exact apFwd_buildRows_insert _ _ z hzr hzc l₁ l₂

/-! ### Cumulative sums are sums over thresholds at least the row threshold -/

theorem sorted_nodup_strict (l : List CountEntry)
    (hs : l.Pairwise (fun a b => a.thr ≤ b.thr))
    (hn : (l.map (fun e => e.thr)).Nodup) :
    l.Pairwise (fun a b => a.thr < b.thr) := by
  have hne : l.Pairwise (fun a b => a.thr ≠ b.thr) := List.pairwise_map.mp hn
  exact (hs.and hne).imp (fun h => lt_of_le_of_ne h.1 h.2)

theorem filter_sorted_split (l₁ l₂ : List CountEntry) (e : CountEntry)
    (hp : (l₁ ++ e :: l₂).Pairwise (fun a b => a.thr < b.thr)) :
    (l₁ ++ e :: l₂).filter (fun x => decide (e.thr ≤ x.thr)) = e :: l₂ := by
  rw [List.filter_append]
  have h1 : l₁.filter (fun x => decide (e.thr ≤ x.thr)) = [] := by
    rw [List.filter_eq_nil_iff]
    intro a ha
    have hlt : a.thr < e.thr := (List.pairwise_append.mp hp).2.2 a ha e (by simp)
    simp
    omega
  have h2 : (e :: l₂).filter (fun x => decide (e.thr ≤ x.thr)) = e :: l₂ := by
    rw [List.filter_eq_self]
    intro a ha
    rcases List.mem_cons.mp ha with rfl | ha'
    · simp
    · have hpc := (List.pairwise_append.mp hp).2.1
      rw [List.pairwise_cons] at hpc
      have := hpc.1 a ha'
      simp
      omega
  rw [h1, h2]
  rfl

theorem tableOf_tp_fp (counts : List CountEntry)
    (hn : (counts.map (fun e => e.thr)).Nodup) :
    ∀ r ∈ tableOf counts,
      r.tp = ((counts.filter (fun e => decide (r.thr ≤ e.thr))).map
        (fun e => g3 e.contam)).sum ∧
      r.fp = ((counts.filter (fun e => decide (r.thr ≤ e.thr))).map
        (fun e => g3 e.ref)).sum := by
  intro r hr
  obtain ⟨l₁, e, l₂, hsp, hrow⟩ := mem_buildRows _ _ _ r hr
  subst hrow
  have hperm := sortRows_perm counts
  have hnod : ((sortRows counts).map (fun e => e.thr)).Nodup :=
    ((hperm.map _).nodup_iff).mpr hn
  have hstrict := sorted_nodup_strict _ (sortRows_sorted counts) hnod
  rw [hsp] at hstrict
  have hfil : (sortRows counts).filter (fun x => decide (e.thr ≤ x.thr)) = e :: l₂ := by
    rw [hsp]
    exact filter_sorted_split l₁ l₂ e hstrict
  have hfilperm : (counts.filter (fun x => decide (e.thr ≤ x.thr))).Perm (e :: l₂) := by
    rw [← hfil]
    exact ((hperm.filter _).symm)
  constructor
  · show g3 e.contam + sumContam l₂ =
      ((counts.filter (fun x => decide (e.thr ≤ x.thr))).map (fun x => g3 x.contam)).sum
    rw [(hfilperm.map (fun x => g3 x.contam)).sum_eq]
    rw [List.map_cons, List.sum_cons, ← sumContam_eq_sum_map]
  · show g3 e.ref + sumRef l₂ =
      ((counts.filter (fun x => decide (e.thr ≤ x.thr))).map (fun x => g3 x.ref)).sum
    rw [(hfilperm.map (fun x => g3 x.ref)).sum_eq]
    rw [List.map_cons, List.sum_cons, ← sumRef_eq_sum_map]

/-! ### Score contributions match the claim's table -/

theorem opContribution_eq_claim : ∀ k, k < 10 → ∀ x : Nat,
    opContribution (k, x) = claimContribution k x := by
  intro k hk x
  interval_cases k <;> simp [opContribution, cigar_score, claimContribution] <;> omega

theorem map_sum_claim : ∀ l : List (Nat × Nat), (∀ c ∈ l, c.1 < 10) →
    (l.map opContribution).sum = (l.map (fun c => claimContribution c.1 c.2)).sum := by
  intro l
  induction l with
  | nil => intro _; rfl
  | cons c cs ih =>
    intro h
    simp only [List.map_cons, List.sum_cons]
    rw [ih (fun x hx => h x (by simp [hx]))]
    rw [show opContribution c = claimContribution c.1 c.2 from
      opContribution_eq_claim c.1 (h c (by simp)) c.2]

/-! ### Claims -/

/-- Claim C1, counterexample: the claim says decode fails with `FormatError`
whenever the input does not decompose completely into grammar tokens and
never returns a best-effort decode of a malformed string.  But
`cigarstring_to_tuples` has no failure path at all: on the malformed string
`3MQ` (the trailing `Q` matches no token, so the grammar's total match
fails) it silently returns the decode of the matched prefix `3M`. -/
theorem C1_counterexample :
    cigarFullMatch str3MQ = false ∧ cigarstring_to_tuples str3MQ = [(0, 3)] := by
  constructor <;> decide

/-- Claim C1, amended: `cigarstring_to_tuples` never raises; it returns the
decode of exactly the regex-matched tokens, so a string that fully matches
the grammar decodes completely into its token sequence (and a malformed
string yields a silent decode of only the matched tokens, as the
counterexample shows). -/
theorem C1_theorem : ∀ toks : List (Nat × Char),
    (∀ t ∈ toks, isCigarOp t.2 = true) →
    cigarstring_to_tuples (String.mk (encodeToks toks)) =
      toks.map (fun t => (cigar2code t.2, t.1)) :=
  decode_encodeToks

/-- Claim C1, witness: the amended theorem at the token list of `2I3M`. -/
theorem C1_witness :
    (∀ t ∈ w1toks, isCigarOp t.2 = true) ∧
    cigarstring_to_tuples (String.mk (encodeToks w1toks)) =
      w1toks.map (fun t => (cigar2code t.2, t.1)) :=
  ⟨by decide, C1_theorem w1toks (by decide)⟩

/-- Claim C2: the F2 column `write_table` emits is
`(1 + 2) * P * S / (2 * P + S)`, which on the threshold-1 row of
`exC2counts` (precision 1, sensitivity 1/2) gives 3/5, while the f-beta
formula at beta 2 (the claim's value, and what `calculate_fbeta_score`
computes) gives 5/9: the code squares beta in `calculate_fbeta_score` but
not in the hard-coded F2 column. -/
theorem C2_theorem :
    (tableOf exC2counts).map (fun r => r.f2) = [6/7, 3/5] ∧
    calculate_fbeta_score 1 (1/2) 2 = 5/9 ∧ ((3 : ℚ)/5 ≠ 5/9) := by
  refine ⟨?_, ?_, by norm_num⟩
  · norm_num [tableOf, sortRows, insertRow, buildRows, rowOf, sumContam, sumRef, g3,
      exC2counts]
  · norm_num [calculate_fbeta_score]

/-- Claim C3, counterexample: for the mapping with a single threshold 0 and
contam count 1001, the emitted row's true-positive is 1000 (the count is
formatted with three significant digits before pandas re-reads it), not the
raw sum 1001 the claim asserts for every mapping. -/
theorem C3_counterexample :
    (tableOf cexC3counts).map (fun r => r.tp) = [1000] ∧
    ((cexC3counts.filter (fun e => decide ((0 : Int) ≤ e.thr))).map
      (fun e => e.contam)).sum = 1001 := by
  constructor <;> decide

/-- Claim C3, amended: every emitted row's true-positive (false-positive)
is the sum of the `"{:.3g}"`-rounded contam (ref) counts over all entries
with threshold at least the row's threshold — equal to the raw sums
whenever every count is exactly representable in three significant digits —
and the worked example holds exactly as claimed: the threshold-1 row has
TP 8, FP 2, sensitivity 8/13 and precision 8/10, the threshold-0 row has
TP 13, FP 12 and sensitivity 1. -/
theorem C3_theorem :
    (∀ counts : List CountEntry, (counts.map (fun e => e.thr)).Nodup →
      ∀ r ∈ tableOf counts,
        r.tp = ((counts.filter (fun e => decide (r.thr ≤ e.thr))).map
          (fun e => g3 e.contam)).sum ∧
        r.fp = ((counts.filter (fun e => decide (r.thr ≤ e.thr))).map
          (fun e => g3 e.ref)).sum) ∧
    (tableOf exC3counts).map (fun r => (r.thr, r.tp, r.fp)) = [(0, 13, 12), (1, 8, 2)] ∧
    (tableOf exC3counts).map (fun r => r.sens) = [1, 8/13] ∧
    (tableOf exC3counts).map (fun r => r.prec) = [13/25, 8/10] := by
  refine ⟨tableOf_tp_fp, by decide, ?_, ?_⟩ <;>
    norm_num [tableOf, sortRows, insertRow, buildRows, rowOf, sumContam, sumRef, g3,
      exC3counts]

/-- Claim C3, witness: the amended theorem applied to the worked example's
threshold-0 row. -/
theorem C3_witness :
    ((exC3counts.map (fun e => e.thr)).Nodup) ∧
    (rowOf (sumContam (sortRows exC3counts)) (sumRef (sortRows exC3counts))
        ⟨0, 10, 5⟩ [⟨1, 2, 8⟩] ∈ tableOf exC3counts) ∧
    (rowOf (sumContam (sortRows exC3counts)) (sumRef (sortRows exC3counts))
        ⟨0, 10, 5⟩ [⟨1, 2, 8⟩]).tp =
      ((exC3counts.filter (fun e =>
          decide ((rowOf (sumContam (sortRows exC3counts)) (sumRef (sortRows exC3counts))
            ⟨0, 10, 5⟩ [⟨1, 2, 8⟩]).thr ≤ e.thr))).map (fun e => g3 e.contam)).sum := by
  have hn : (exC3counts.map (fun e => e.thr)).Nodup := by decide
  have ht : tableOf exC3counts =
      rowOf (sumContam (sortRows exC3counts)) (sumRef (sortRows exC3counts))
          ⟨0, 10, 5⟩ [⟨1, 2, 8⟩] ::
        [rowOf (sumContam (sortRows exC3counts)) (sumRef (sortRows exC3counts))
          ⟨1, 2, 8⟩ []] := rfl
  have hm : rowOf (sumContam (sortRows exC3counts)) (sumRef (sortRows exC3counts))
      ⟨0, 10, 5⟩ [⟨1, 2, 8⟩] ∈ tableOf exC3counts := by
    rw [ht]
    exact List.mem_cons_self _ _
  exact ⟨hn, hm, (C3_theorem.1 exC3counts hn _ hm).1⟩

/-- Claim C4, counterexample: on `exC4counts` the two rows have
sensitivities 1 (threshold 0) and 1/2 (threshold 1) with precision 1 each;
the code's average precision is 1, while the claim's formula — seeding the
delta walk with the sensitivity of the row with the globally LOWEST
threshold — gives 3/2.  The code seeds with the last ascending row, the
highest threshold. -/
theorem C4_counterexample :
    calculate_average_precision (tableOf exC4counts) = 1 ∧
    apClaimFormula (tableOf exC4counts) = 3/2 := by
  constructor <;>
    norm_num [tableOf, sortRows, insertRow, buildRows, rowOf, sumContam, sumRef, g3,
      exC4counts, calculate_average_precision, np_diff, apClaimFormula, apDeltaWalk,
      statPair, nextSens]

/-- Claim C4, amended: average precision is the reversed (last-row-first)
walk summing precision times delta, where the first delta is seeded with
the sensitivity of the row with the globally HIGHEST threshold (the lowest
observed sensitivity, not a true first difference and not a literal 0),
later deltas are differences of consecutive sensitivities in that reversed
order, and a not-a-number precision contributes 0 (in the `ℚ` model the
0/0 junk value is already that 0). -/
theorem C4_theorem : ∀ rows : List StatRow, rows ≠ [] →
    calculate_average_precision rows = apAmendedFormula rows := by
  intro rows hne
  rw [ap_eq_walk]
  unfold apAmendedFormula
  cases hps : rows.reverse.map statPair with
  | nil =>
    exfalso
    apply hne
    cases rows with
    | nil => rfl
    | cons r rs => simp at hps
  | cons q rest =>
    obtain ⟨s₁, p₁⟩ := q
    show apDeltaWalk 0 ((s₁, p₁) :: rest) = p₁ * s₁ + apDeltaWalk s₁ rest
    rw [apDeltaWalk_cons]
    ring

/-- Claim C4, witness: the amended theorem at the counterexample table. -/
theorem C4_witness :
    tableOf exC4counts ≠ [] ∧
    calculate_average_precision (tableOf exC4counts) =
      apAmendedFormula (tableOf exC4counts) := by
  have hlen : (tableOf exC4counts).length = 2 := by decide
  have hne : tableOf exC4counts ≠ [] := by
    intro h
    rw [h] at hlen
    cases hlen
  exact ⟨hne, C4_theorem _ hne⟩

/-- Claim C5: `md_mismatches` tokenises the MD string with
`([A-Za-z]+|\^[A-Za-z])` and adds a token's length only when its first
character is a letter, so caret-prefixed tokens are skipped and digits are
ignored; on `10A5^AC3` it returns 2, and in general the count equals the
number of letters of the string not immediately preceded by a caret. -/
theorem C5_theorem :
    md_mismatches mdExample = 2 ∧ ∀ s : String, md_mismatches s = mdSpecCount s := by
  refine ⟨by decide, ?_⟩
  intro s
  unfold md_mismatches mdSpecCount mdFindAll
  apply mdTokenSum_spec
  · exact le_rfl
  · intro hb
    simp at hb

/-- Claim C6: scoring a sequence of operations with known kinds sums the
claimed per-kind contributions (+L for Match/Equal, -(6+L) for
Insertion/Deletion, -L for Diff, 0 for the rest), and the score of `2I3M`
is -5. -/
theorem C6_theorem :
    (∀ ctups : List (Nat × Nat), (∀ c ∈ ctups, c.1 < 10) →
      (score_cigartuples [] ctups).score =
        (ctups.map (fun c => claimContribution c.1 c.2)).sum) ∧
    (score_cigarstring [] str2I3M).score = -5 := by
  refine ⟨?_, by decide⟩
  intro ctups h
  show (ctups.foldl scoreStep _).score = _
  rw [scoreFold_score, map_sum_claim ctups h]
  simp

/-- Claim C6, witness: the score law at the decode of `2I3M`. -/
theorem C6_witness :
    (∀ c ∈ cigarstring_to_tuples str2I3M, c.1 < 10) ∧
    (score_cigartuples [] (cigarstring_to_tuples str2I3M)).score =
      ((cigarstring_to_tuples str2I3M).map (fun c => claimContribution c.1 c.2)).sum :=
  ⟨by decide, C6_theorem.1 _ (by decide)⟩

/-- Claim C7: an operation kind without a score-table entry never raises:
over one run from the instance state `w` it is warned about exactly once if
it occurs and was not warned before (zero times otherwise), and all its
occurrences contribute 0 to the score — the score equals the score of the
tuple list with the unknown kinds filtered out. -/
theorem C7_theorem : ∀ (ctups : List (Nat × Nat)) (k : Nat) (w : List Nat),
    cigar_score k = none →
    ((score_cigartuples w ctups).log.count k =
      if k ∉ w ∧ k ∈ ctups.map Prod.fst then 1 else 0) ∧
    (score_cigartuples w ctups).score =
      (score_cigartuples w (ctups.filter (fun c => (cigar_score c.1).isSome))).score := by
  intro ctups k w hk
  constructor
  · have hlog := (scoreFold_state ctups { score := 0, warned := w, log := [] }).1
    show (ctups.foldl scoreStep _).log.count k = _
    rw [hlog]
    simp only [List.nil_append]
    exact newWarns_count k hk ctups w
  · show (ctups.foldl scoreStep { score := 0, warned := w, log := [] }).score =
      ((ctups.filter (fun c => (cigar_score c.1).isSome)).foldl scoreStep
        { score := 0, warned := w, log := [] }).score
    rw [scoreFold_score, scoreFold_score, opContribution_filter]

/-- Claim C7, witness: code 11 occurring twice in a fresh instance yields
one warning and the unknown occurrences leave the score unchanged. -/
theorem C7_witness :
    cigar_score 11 = none ∧
    ((score_cigartuples [] w7tups).log.count 11 =
      if 11 ∉ ([] : List Nat) ∧ 11 ∈ w7tups.map Prod.fst then 1 else 0) ∧
    (score_cigartuples [] w7tups).score =
      (score_cigartuples [] (w7tups.filter (fun c => (cigar_score c.1).isSome))).score :=
  ⟨rfl, (C7_theorem w7tups 11 [] rfl).1, (C7_theorem w7tups 11 [] rfl).2⟩

/-- Claim C8: decoding a valid CIGAR string (a concatenation of tokens with
canonical decimal lengths and alphabet letters, all lengths non-zero) and
re-encoding each operation as its length followed by its letter reproduces
the original string byte for byte. -/
theorem C8_theorem : ∀ toks : List (Nat × Char),
    (∀ t ∈ toks, isCigarOp t.2 = true ∧ 0 < t.1) →
    String.mk (encodeOps (cigarstring_to_tuples (String.mk (encodeToks toks)))) =
      String.mk (encodeToks toks) := by
  intro toks h
  have hop : ∀ t ∈ toks, isCigarOp t.2 = true := fun t ht => (h t ht).1
  show String.mk (encodeOps (cigarstring_to_tuples (String.mk (encodeToks toks)))) = _
  rw [decode_encodeToks toks hop, encodeOps_decode toks hop]

/-- Claim C8, witness: the round trip on `2I3M`. -/
theorem C8_witness :
    (∀ t ∈ w1toks, isCigarOp t.2 = true ∧ 0 < t.1) ∧
    String.mk (encodeOps (cigarstring_to_tuples (String.mk (encodeToks w1toks)))) =
      String.mk (encodeToks w1toks) :=
  ⟨by decide, C8_theorem w1toks (by decide)⟩

/-- Claim C9: inserting a no-op entry (both counts zero, fresh threshold)
into a non-empty counts mapping leaves the average precision of the table
`write_table` produces unchanged (exactly, in the `ℚ` model). -/
theorem C9_theorem : ∀ (counts : List CountEntry) (z : CountEntry),
    counts ≠ [] → z.ref = 0 → z.contam = 0 →
    (∀ e ∈ counts, e.thr ≠ z.thr) →
    (write_table (counts ++ [z])).map calculate_average_precision =
      (write_table counts).map calculate_average_precision := by
  intro counts z hne hzr hzc hfresh
  obtain ⟨c, cs, rfl⟩ : ∃ c cs, counts = c :: cs := by
    cases counts with
    | nil => exact absurd rfl hne
    | cons c cs => exact ⟨c, cs, rfl⟩
  show some (calculate_average_precision (tableOf ((c :: cs) ++ [z]))) =
    some (calculate_average_precision (tableOf (c :: cs)))
  exact congrArg some (tableOf_insert_zero (c :: cs) z hzr hzc hfresh)

/-- Claim C9, witness: inserting threshold 2 with zero counts into the
worked example leaves the average precision unchanged. -/
theorem C9_witness :
    (exC3counts ≠ [] ∧ zC9.ref = 0 ∧ zC9.contam = 0 ∧
      (∀ e ∈ exC3counts, e.thr ≠ zC9.thr)) ∧
    (write_table (exC3counts ++ [zC9])).map calculate_average_precision =
      (write_table exC3counts).map calculate_average_precision :=
  ⟨⟨by simp [exC3counts], rfl, rfl, by decide⟩,
    C9_theorem exC3counts zC9 (by simp [exC3counts]) rfl rfl (by decide)⟩

/-- Claim C10: on the empty mapping `write_table` fails in the header
unpacking (`k, *_ = counts.keys()` raises `ValueError`) before any
statistic is computed, rather than emitting an empty table; on any
non-empty mapping such as the worked example it produces the table. -/
theorem C10_theorem :
    write_table [] = none ∧ write_table exC3counts = some (tableOf exC3counts) :=
  ⟨rfl, rfl⟩
